import Mathlib

/-!
Verification of the AIR constraint-compiler core of a STARK proving framework.

The definitions below are a shallow embedding of the Rust sources under src/:
common/src/options.rs, common/src/air/mod.rs, common/src/air/boundary/mod.rs and
verifier/src/channel.rs. Components of the repository whose sources are not part
of the staged files (the assertion, divisor, transition and context modules, the
FFT and polynomial layers, the hash functions and the random coin) are modelled
from the specification; each such definition says so in its doc comment. Hash
maps of the Rust code are modelled as association lists in insertion order, and
panicking validation is modelled with Except values carrying the error names of
the specification's error taxonomy.
-/

namespace Winterfell

-- ERRORS (spec section 7 error taxonomy; the Rust code panics with messages)
-- =========================================================================

/-- Which ProofOptions parameter was out of range. -/
inductive OptionKind
  | numQueries
  | blowupFactor
  | grindingFactor
  deriving DecidableEq, Repr

/-- Modelled from the spec: the error taxonomy of the compilation pipeline
(section 7); the Rust code surfaces these as panics or error values. -/
inductive AirError
  | invalidAssertionShape
  | registerOutOfRange
  | stepOutOfRange
  | assertionOverlap
  | invalidPeriodicColumn
  | optionOutOfRange (k : OptionKind)
  | inconsistentDegree
  deriving DecidableEq, Repr

/-- Verifier-side error from verifier/src/channel.rs. -/
inductive VerifierError
  | querySeedProofOfWorkVerificationFailed
  deriving DecidableEq, Repr

/-- Whether an Except value is an ok value (Rust Result::is_ok). -/
def except_is_ok {e a : Type} : Except e a → Bool
  | .ok _ => true
  | .error _ => false

-- SMALL NUMERIC HELPERS (u64 / usize bit semantics)
-- =========================================================================

/-- Fuelled trailing-zero count; with fuel 64 this is exactly the semantics of
trailing_zeros on a 64-bit unsigned integer (it returns 64 on input 0). -/
def tz_aux : Nat → Nat → Nat
  | 0, _ => 0
  | fuel + 1, n => if n % 2 = 1 then 0 else tz_aux fuel (n / 2) + 1

/-- trailing_zeros of a 64-bit unsigned value (u64 and the 64-bit usize). -/
def trailing_zeros64 (n : Nat) : Nat := tz_aux 64 n

/-- is_power_of_two of a 64-bit unsigned value: nonzero and equal to a power of
two, expressed through its own trailing-zero count (for a power of two the
number equals two to its trailing zeros; Rust checks count_ones = 1, an
equivalent condition on 64-bit values). -/
def is_power_of_two (n : Nat) : Bool :=
  decide (n ≠ 0) && decide (n = 2 ^ trailing_zeros64 n)

/-- Little-endian value of a list of bytes (u64::from_le_bytes on 8 bytes). -/
def le_u64 (bytes : List Nat) : Nat :=
  bytes.foldr (fun b acc => b + 256 * acc) 0

/-- The 8 little-endian bytes of a u64 (u64::to_le_bytes). -/
def u64_le_bytes (n : Nat) : List Nat :=
  (List.range 8).map (fun i => n / 256 ^ i % 256)

-- RANDOM COIN
-- =========================================================================

/-- Modelled from the spec: the pseudo-random coin (the crypto crate's
RandomElementGenerator is outside the staged sources). The spec fixes draw_pair
to be a pure function of the seed and of the number of draws made so far, so a
coin is represented by the stream of pairs its seed determines together with
the current draw counter. -/
structure Coin (E : Type) where
  seq : Nat → E × E
  pos : Nat

/-- Modelled from the spec: draw_pair returns the next pair of field elements
and advances the draw counter by one pair. -/
def Coin.draw_pair {E : Type} (c : Coin E) : (E × E) × Coin E :=
  (c.seq c.pos, ⟨c.seq, c.pos + 1⟩)

-- POLYNOMIAL EVALUATION
-- =========================================================================

/-- Modelled from the spec: coefficient-form polynomial evaluation. The math
crate's polynom module is outside the staged sources; its unit tests under
src/math/src/polynom/tests.rs fix the semantics: the evaluation of an empty
coefficient slice is zero and otherwise the result is the sum over i of
poly[i] times x to the i. -/
def polynom_eval {F : Type} [Field F] (p : List F) (x : F) : F :=
  p.foldr (fun c acc => c + x * acc) 0

-- PROOF OPTIONS (src/common/src/options.rs)
-- =========================================================================

/-- FieldExtension from src/common/src/options.rs. -/
inductive FieldExtension
  | noExt
  | quadratic
  deriving DecidableEq, Repr

/-- HashFunction from src/common/src/options.rs. -/
inductive HashFunction
  | blake3_256
  | sha3_256
  deriving DecidableEq, Repr

/-- ProofOptions from src/common/src/options.rs. The Rust struct stores
num_queries and grinding_factor in u8 fields and the blowup factor as its
base-two logarithm in a u8 field; the accessors below recover the public
values. -/
structure ProofOptions where
  num_queries_u8 : Nat
  blowup_factor_log : Nat
  grinding_factor_u8 : Nat
  hash_fn : HashFunction
  field_extension : FieldExtension
  deriving DecidableEq, Repr

/-- ProofOptions::new from src/common/src/options.rs: validates each parameter
in the order of the Rust asserts and stores the narrowed fields (u8 casts are
modelled as reduction mod 256, the log of the blowup factor as the 64-bit
trailing-zero count). Each failed assert is the OptionOutOfRange error of the
spec's taxonomy. -/
def ProofOptions.new (num_queries blowup_factor grinding_factor : Nat)
    (hash_fn : HashFunction) (field_extension : FieldExtension) :
    Except AirError ProofOptions :=
  if num_queries = 0 then .error (.optionOutOfRange .numQueries)
  else if 128 < num_queries then .error (.optionOutOfRange .numQueries)
  else if ¬ is_power_of_two blowup_factor = true then
    .error (.optionOutOfRange .blowupFactor)
  else if blowup_factor < 4 then .error (.optionOutOfRange .blowupFactor)
  else if 256 < blowup_factor then .error (.optionOutOfRange .blowupFactor)
  else if 32 < grinding_factor then .error (.optionOutOfRange .grindingFactor)
  else .ok ⟨num_queries % 256, trailing_zeros64 blowup_factor,
    grinding_factor % 256, hash_fn, field_extension⟩

/-- ProofOptions::num_queries accessor. -/
def ProofOptions.num_queries (o : ProofOptions) : Nat := o.num_queries_u8

/-- ProofOptions::blowup_factor accessor: 1 shifted left by the stored log. -/
def ProofOptions.blowup_factor (o : ProofOptions) : Nat := 2 ^ o.blowup_factor_log

/-- ProofOptions::grinding_factor accessor. -/
def ProofOptions.grinding_factor (o : ProofOptions) : Nat := o.grinding_factor_u8

-- VERIFIER CHANNEL QUERY SEED (src/verifier/src/channel.rs)
-- =========================================================================

/-- The query seed computed by build_query_seed before the proof-of-work check
(src/verifier/src/channel.rs lines 264 to 279): the FRI layer roots are
concatenated and hashed into a 32-byte seed, which is placed in bytes 0..32 of
a 64-byte block whose bytes 56..64 hold the little-endian nonce, and the block
is hashed again. The hash function itself is outside the staged sources and is
passed as a function from byte lists to 32-byte lists. -/
def compute_query_seed (hash_fn : List Nat → List Nat)
    (fri_roots : List (List Nat)) (nonce : Nat) : List Nat :=
  let root_bytes := fri_roots.foldl (fun acc r => acc ++ r) []
  let query_seed := hash_fn root_bytes
  let input_bytes := query_seed.take 32 ++ List.replicate 24 0 ++ u64_le_bytes nonce
  hash_fn input_bytes

/-- build_query_seed from src/verifier/src/channel.rs lines 257 to 287: the
proof-of-work check reads the first 8 bytes of the query seed as a
little-endian u64 and requires its trailing-zero count (the number of leading
zero bits of the seed read in byte order, least significant bit first) to reach
the grinding factor; otherwise QuerySeedProofOfWorkVerificationFailed. -/
def build_query_seed (hash_fn : List Nat → List Nat)
    (fri_roots : List (List Nat)) (nonce : Nat) (options : ProofOptions) :
    Except VerifierError (List Nat) :=
  let query_seed := compute_query_seed hash_fn fri_roots nonce
  let seed_head := le_u64 (query_seed.take 8)
  if trailing_zeros64 seed_head < options.grinding_factor then
    .error .querySeedProofOfWorkVerificationFailed
  else .ok query_seed

-- ASSERTIONS
-- =========================================================================

/-- Modelled from the spec: an assertion record (the assertions module is
outside the staged sources). register indexes a trace column, first_step and
stride locate the asserted steps (stride 0 is a single-step assertion), and
values holds the asserted base-field values. -/
structure Assertion (F : Type) where
  register : Nat
  first_step : Nat
  stride : Nat
  values : List F
  deriving DecidableEq, Repr

/-- Modelled from the spec: validate_trace_width fails with RegisterOutOfRange
unless the register index is below the trace width. -/
def Assertion.validate_trace_width {F : Type} (a : Assertion F) (w : Nat) : Bool :=
  decide (a.register < w)

/-- Modelled from the spec: validate_trace_length fails with StepOutOfRange
when first_step reaches the trace length or a nonzero stride does not divide
the trace length. -/
def Assertion.validate_trace_length {F : Type} (a : Assertion F) (n : Nat) : Bool :=
  decide (a.first_step < n) && (decide (a.stride = 0) || decide (n % a.stride = 0))

/-- Modelled from the spec: overlaps_with tests whether two assertions
constrain a common (register, step) pair. Per the spec's overlap rules, two
single-step assertions (stride 0, conceptually stride equal to the trace
length) overlap exactly when their steps agree, and otherwise the step sets
meet exactly when the first steps are congruent modulo the smaller declared
stride (strides are powers of two dividing the trace length, so the smaller
divides the larger, and a single-step assertion's conceptual stride is the
largest of all). -/
def Assertion.overlaps_with {F : Type} (a b : Assertion F) : Bool :=
  decide (a.register = b.register) &&
    (if a.stride = 0 ∧ b.stride = 0 then decide (a.first_step = b.first_step)
     else
       let s := if a.stride = 0 then b.stride
         else if b.stride = 0 then a.stride
         else min a.stride b.stride
       decide (a.first_step % s = b.first_step % s))

/-- The natural order of assertions (spec section 3): strictly less first by
stride, then by first_step, then by register, all ascending. -/
def assertion_lt {F : Type} (a b : Assertion F) : Bool :=
  decide (a.stride < b.stride) ||
    (decide (a.stride = b.stride) &&
      (decide (a.first_step < b.first_step) ||
        (decide (a.first_step = b.first_step) && decide (a.register < b.register))))

/-- Equality of the natural-order keys of two assertions. -/
def assertion_key_eq {F : Type} (a b : Assertion F) : Bool :=
  decide (a.stride = b.stride) && decide (a.first_step = b.first_step) &&
    decide (a.register = b.register)

-- COMPUTATION CONTEXT
-- =========================================================================

/-- Modelled from the spec: a transition constraint degree descriptor, a list
of (cycle length, multiplier) pairs (the transition module is outside the
staged sources). -/
structure TransitionConstraintDegree where
  cycles : List (Nat × Nat)
  deriving DecidableEq, Repr

/-- Modelled from the spec: the evaluation degree of a transition degree
descriptor for trace length n is (n - 1) times the sum of the multipliers plus
the sum over cycles of (n / cycle_length - 1) times the multiplier. -/
def TransitionConstraintDegree.get_evaluation_degree
    (d : TransitionConstraintDegree) (n : Nat) : Nat :=
  (n - 1) * (d.cycles.map Prod.snd).sum +
    (d.cycles.map (fun c => (n / c.1 - 1) * c.2)).sum

/-- Modelled from the spec: the read-only computation context: trace width and
length, the transition degree descriptors, the constraint-evaluation blowup
factor and the trace domain generator (the context module is outside the
staged sources). -/
structure ComputationContext (F : Type) where
  trace_width : Nat
  trace_length : Nat
  transition_constraint_degrees : List TransitionConstraintDegree
  ce_blowup_factor : Nat
  trace_domain_generator : F
  deriving Repr

/-- Modelled from the spec: the target composition degree exposed by the
context is the constraint-evaluation blowup factor times the trace polynomial
degree. -/
def ComputationContext.composition_degree {F : Type} (ctx : ComputationContext F) : Nat :=
  ctx.ce_blowup_factor * (ctx.trace_length - 1)

/-- trace_poly_degree from src/common/src/air/mod.rs: trace length minus 1. -/
def ComputationContext.trace_poly_degree {F : Type} (ctx : ComputationContext F) : Nat :=
  ctx.trace_length - 1

-- CONSTRAINT DIVISOR
-- =========================================================================

/-- Modelled from the spec: a constraint divisor in factored form, a list of
numerator terms (e, o) denoting x^e - o and a list of excluded points k
denoting denominator terms x - k (the divisor module is outside the staged
sources). -/
structure ConstraintDivisor (F : Type) where
  numerator : List (Nat × F)
  exclude : List F
  deriving DecidableEq, Repr

/-- Modelled from the spec: the degree of a divisor is the sum of the
numerator exponents minus the number of exclusions. -/
def ConstraintDivisor.degree {F : Type} (d : ConstraintDivisor F) : Nat :=
  (d.numerator.map Prod.fst).sum - d.exclude.length

/-- Modelled from the spec: the divisor of an assertion over trace domain
generator g and trace length n. A single-step assertion (stride 0) yields the
term x - g^first_step; an assertion of stride s, hitting k = n / s steps,
yields x^k - g^(k times first_step mod n). -/
def ConstraintDivisor.from_assertion {F : Type} [Field F]
    (a : Assertion F) (ctx : ComputationContext F) : ConstraintDivisor F :=
  if a.stride = 0 then
    ⟨[(1, ctx.trace_domain_generator ^ a.first_step)], []⟩
  else
    let k := ctx.trace_length / a.stride
    ⟨[(k, ctx.trace_domain_generator ^ (k * a.first_step % ctx.trace_length))], []⟩

-- BOUNDARY CONSTRAINTS (src/common/src/air/boundary/mod.rs)
-- =========================================================================

/-- BoundaryConstraint from src/common/src/air/boundary/mod.rs: a register
index, the constraint polynomial in the base field, the domain offset (number
of steps, multiplicative offset) and the pair of composition coefficients in
the evaluation field. -/
structure BoundaryConstraint (F E : Type) where
  register : Nat
  poly : List F
  poly_offset : Nat × F
  cc : E × E
  deriving DecidableEq, Repr

/-- BoundaryConstraint::new from src/common/src/air/boundary/mod.rs lines 143
to 179. The twiddle cache of the Rust code maps a cycle length to its inverse
twiddles; since the twiddles are a pure function of the length, the cache is
modelled by the list of lengths it holds, in insertion order, and the in-place
inverse-FFT interpolation (the fft module is outside the staged sources) is
passed in as the length-preserving function interp. Returns the constraint,
the updated cache and the advanced coin. -/
def BoundaryConstraint.new {F E : Type} [Field F]
    (interp : List F → List F) (assertion : Assertion F) (inv_g : F)
    (twiddle_map : List Nat) (coeff_prng : Coin E) :
    BoundaryConstraint F E × List Nat × Coin E :=
  let step1 :=
    if 1 < assertion.values.length then
      let twiddle_map :=
        if twiddle_map.any (fun k => k == assertion.values.length) then twiddle_map
        else twiddle_map ++ [assertion.values.length]
      let poly := interp assertion.values
      let poly_offset :=
        if assertion.first_step ≠ 0 then
          (assertion.first_step, inv_g ^ assertion.first_step)
        else ((0 : Nat), (1 : F))
      (poly, poly_offset, twiddle_map)
    else (assertion.values, ((0 : Nat), (1 : F)), twiddle_map)
  let drawn := coeff_prng.draw_pair
  (⟨assertion.register, step1.1, step1.2.1, drawn.1⟩, step1.2.2, drawn.2)

/-- BoundaryConstraint::evaluate_at from src/common/src/air/boundary/mod.rs
lines 212 to 229: a length-one polynomial contributes its constant lifted to
the evaluation field; otherwise the polynomial is evaluated, with coefficients
lifted through the embedding phi, at x times the lifted offset. The result is
the trace value minus the assertion value. -/
def BoundaryConstraint.evaluate_at {F E : Type} [Field F] [Field E]
    (phi : F →+* E) (c : BoundaryConstraint F E) (x trace_value : E) : E :=
  let assertion_value :=
    if c.poly.length = 1 then phi (c.poly.headD 0)
    else polynom_eval (c.poly.map (fun b => phi b)) (x * phi c.poly_offset.2)
  trace_value - assertion_value

/-- BoundaryConstraintGroup from src/common/src/air/boundary/mod.rs: the
constraints sharing one divisor together with the group's degree adjustment. -/
structure BoundaryConstraintGroup (F E : Type) where
  constraints : List (BoundaryConstraint F E)
  divisor : ConstraintDivisor F
  degree_adjustment : Nat
  deriving DecidableEq, Repr

/-- BoundaryConstraintGroup::new from src/common/src/air/boundary/mod.rs lines
40 to 57: the degree adjustment is the target degree (composition degree plus
divisor degree) minus the trace polynomial degree, cast to u32 (the Rust code
writes the usize difference as u32, which wraps; the cast is modelled as
reduction mod 2 to the 32), and the constraint list starts empty. -/
def BoundaryConstraintGroup.new {F E : Type}
    (divisor : ConstraintDivisor F) (trace_poly_degree composition_degree : Nat) :
    BoundaryConstraintGroup F E :=
  let target_degree := composition_degree + divisor.degree
  ⟨[], divisor, (target_degree - trace_poly_degree) % 2 ^ 32⟩

/-- BoundaryConstraintGroup::add from src/common/src/air/boundary/mod.rs lines
92 to 105: builds the boundary constraint of an assertion and appends it to
the group, threading the twiddle cache and the coin. -/
def BoundaryConstraintGroup.add {F E : Type} [Field F]
    (g : BoundaryConstraintGroup F E) (interp : List F → List F)
    (assertion : Assertion F) (inv_g : F) (twiddle_map : List Nat)
    (coeff_prng : Coin E) : BoundaryConstraintGroup F E × List Nat × Coin E :=
  let built := BoundaryConstraint.new interp assertion inv_g twiddle_map coeff_prng
  (⟨g.constraints ++ [built.1], g.divisor, g.degree_adjustment⟩, built.2.1, built.2.2)

/-- BoundaryConstraintGroup::max_poly_degree from
src/common/src/air/boundary/mod.rs lines 78 to 86: the running maximum of the
constraint polynomial lengths starts at 0, and the Rust function then returns
that maximum minus one on an unsigned size, which underflows when the group
holds no constraint; the underflowing subtraction is modelled as none. -/
def BoundaryConstraintGroup.max_poly_degree {F E : Type}
    (g : BoundaryConstraintGroup F E) : Option Nat :=
  let poly_size := g.constraints.foldl
    (fun m c => if m < c.poly.length then c.poly.length else m) 0
  if poly_size = 0 then none else some (poly_size - 1)

-- TRANSITION CONSTRAINT GROUPS
-- =========================================================================

/-- Modelled from the spec: a transition constraint group stores its degree
descriptor, the degree adjustment and the list of (transition index,
coefficient pair) entries (the transition module is outside the staged
sources). -/
structure TransitionConstraintGroup (E : Type) where
  degree : TransitionConstraintDegree
  degree_adjustment : Nat
  indices : List (Nat × (E × E))
  deriving DecidableEq, Repr

/-- Modelled from the spec: a fresh group holds the descriptor and adjustment
and no indices. -/
def TransitionConstraintGroup.new {E : Type} (degree : TransitionConstraintDegree)
    (degree_adjustment : Nat) : TransitionConstraintGroup E :=
  ⟨degree, degree_adjustment, []⟩

/-- Modelled from the spec: adding a transition constraint appends its index
and coefficient pair. -/
def TransitionConstraintGroup.add {E : Type} (g : TransitionConstraintGroup E)
    (i : Nat) (cc : E × E) : TransitionConstraintGroup E :=
  ⟨g.degree, g.degree_adjustment, g.indices ++ [(i, cc)]⟩

-- ASSERTION PREPARATION (src/common/src/air/mod.rs lines 288 to 321)
-- =========================================================================

/-- One validation pass of prepare_assertions over an assertion about to be
inserted: trace-width validation, trace-length validation, then the overlap
scan against every already-inserted assertion on the same register, in the
order of the Rust code. -/
def check_assertion {F : Type} [Field F] (ctx : ComputationContext F)
    (result : List (Assertion F)) (a : Assertion F) : Except AirError Unit :=
  if ¬ a.validate_trace_width ctx.trace_width = true then .error .registerOutOfRange
  else if ¬ a.validate_trace_length ctx.trace_length = true then .error .stepOutOfRange
  else if result.any (fun b => decide (b.register = a.register) && b.overlaps_with a) then
    .error .assertionOverlap
  else .ok ()

/-- Ordered insertion into the sorted-set model of the BTreeSet of
prepare_assertions: the new assertion goes before the first element not below
it in the natural order, and an element with an equal key keeps the set
unchanged (BTreeSet::insert keeps the existing element). -/
def insert_sorted {F : Type} (a : Assertion F) : List (Assertion F) → List (Assertion F)
  | [] => [a]
  | b :: t =>
    if assertion_lt b a then b :: insert_sorted a t
    else if assertion_key_eq a b then b :: t
    else a :: b :: t

/-- The insertion loop of prepare_assertions: validate each assertion, check
it against the set built so far, and insert it in natural order. -/
def prep_loop {F : Type} [Field F] (ctx : ComputationContext F) :
    List (Assertion F) → List (Assertion F) → Except AirError (List (Assertion F))
  | acc, [] => .ok acc
  | acc, a :: rest =>
    match check_assertion ctx acc a with
    | .error e => .error e
    | .ok _ => prep_loop ctx (insert_sorted a acc) rest

/-- prepare_assertions from src/common/src/air/mod.rs lines 288 to 321:
validates all assertions against the context, rejects overlaps, and returns
them sorted in the natural order. -/
def prepare_assertions {F : Type} [Field F] (ctx : ComputationContext F)
    (assertions : List (Assertion F)) : Except AirError (List (Assertion F)) :=
  prep_loop ctx [] assertions

-- BOUNDARY PIPELINE (src/common/src/air/mod.rs lines 165 to 215)
-- =========================================================================

/-- The running state of the boundary-constraint loop: the contents of the
group hash map (an association list keyed by (stride, first_step); the list
order is only the model's internal storage of the map's entries, here their
insertion order — the map's own unspecified iteration order is applied
separately when the groups are collected), the twiddle cache and the coin. -/
structure BoundaryState (F E : Type) where
  groups : List ((Nat × Nat) × BoundaryConstraintGroup F E)
  twiddles : List Nat
  coin : Coin E

/-- One iteration of the boundary loop of get_boundary_constraints: the group
for the assertion's (stride, first_step) key is created on first use with a
divisor built from that assertion, and the assertion's constraint is appended
to it, drawing the coefficient pair from the coin. Only the keyed content of
the map is built here; no iteration order is fixed by this step. -/
def boundary_step {F E : Type} [Field F] (interp : List F → List F)
    (ctx : ComputationContext F) (inv_g : F) (st : BoundaryState F E)
    (assertion : Assertion F) : BoundaryState F E :=
  let key := (assertion.stride, assertion.first_step)
  let groups :=
    if st.groups.any (fun p => p.1 == key) then st.groups
    else st.groups ++ [(key, BoundaryConstraintGroup.new
      (ConstraintDivisor.from_assertion assertion ctx)
      ctx.trace_poly_degree ctx.composition_degree)]
  let built := BoundaryConstraint.new interp assertion inv_g st.twiddles st.coin
  let groups := groups.map (fun p =>
    if p.1 == key then (p.1, ⟨p.2.constraints ++ [built.1], p.2.divisor, p.2.degree_adjustment⟩)
    else p)
  ⟨groups, built.2.1, built.2.2⟩

/-- The boundary loop of get_boundary_constraints over the sorted assertions,
started from an empty group map and an empty twiddle cache. -/
def boundary_loop {F E : Type} [Field F] (interp : List F → List F)
    (ctx : ComputationContext F) (sorted : List (Assertion F)) (coin : Coin E) :
    BoundaryState F E :=
  sorted.foldl (boundary_step interp ctx ctx.trace_domain_generator⁻¹) ⟨[], [], coin⟩

/-- Stable ordered insertion by degree adjustment, placing the new group before
the first group whose adjustment is not smaller. -/
def insert_by_adjustment {F E : Type} (g : BoundaryConstraintGroup F E) :
    List (BoundaryConstraintGroup F E) → List (BoundaryConstraintGroup F E)
  | [] => [g]
  | h :: t =>
    if h.degree_adjustment < g.degree_adjustment then h :: insert_by_adjustment g t
    else g :: h :: t

/-- The stable sort by degree adjustment applied to the emitted group list
(Vec::sort_by_key is stable). -/
def sort_by_adjustment {F E : Type} (l : List (BoundaryConstraintGroup F E)) :
    List (BoundaryConstraintGroup F E) :=
  l.foldr insert_by_adjustment []

/-- Air::get_boundary_constraints from src/common/src/air/mod.rs lines 165 to
215: prepare and sort the assertions, fold them through the group map in the
sorted order, collect the groups from the map, and emit them sorted by degree
adjustment with the stable sort. The Rust std HashMap enumerates its entries
in an unspecified, per-instance order, which the stable sort preserves among
groups of equal degree adjustment; that order is modelled by the parameter
iter, an arbitrary function applied to the map's entries at collection time
(a run of the program corresponds to some iter that permutes its input). -/
def get_boundary_constraints {F E : Type} [Field F] (interp : List F → List F)
    (ctx : ComputationContext F) (assertions : List (Assertion F)) (coin : Coin E)
    (iter : List ((Nat × Nat) × BoundaryConstraintGroup F E) →
      List ((Nat × Nat) × BoundaryConstraintGroup F E)) :
    Except AirError (List (BoundaryConstraintGroup F E)) :=
  match prepare_assertions ctx assertions with
  | .error e => .error e
  | .ok sorted =>
    .ok (sort_by_adjustment ((iter (boundary_loop interp ctx sorted coin).groups).map Prod.snd))

-- TRANSITION PIPELINE (src/common/src/air/mod.rs lines 130 to 159)
-- =========================================================================

/-- One iteration of get_transition_constraints: the group for the
constraint's evaluation degree is created on first use, with the adjustment
target_degree minus evaluation degree cast to u32 (modelled as reduction mod
2 to the 32, matching the Rust cast), and the index is appended with a fresh
coefficient pair. The hash map keyed by evaluation degree is modelled as an
association list in insertion order. -/
def transition_step {E : Type} (n target_degree : Nat)
    (st : List (Nat × TransitionConstraintGroup E) × Coin E)
    (p : Nat × TransitionConstraintDegree) :
    List (Nat × TransitionConstraintGroup E) × Coin E :=
  let evaluation_degree := p.2.get_evaluation_degree n
  let degree_adjustment := (target_degree - evaluation_degree) % 2 ^ 32
  let groups :=
    if st.1.any (fun q => q.1 == evaluation_degree) then st.1
    else st.1 ++ [(evaluation_degree, TransitionConstraintGroup.new p.2 degree_adjustment)]
  let drawn := st.2.draw_pair
  (groups.map (fun q =>
    if q.1 == evaluation_degree then (q.1, q.2.add p.1 drawn.1) else q), drawn.2)

/-- Air::get_transition_constraints from src/common/src/air/mod.rs lines 130
to 159: constraints are bucketed by evaluation degree with coefficients drawn
in index order, and the groups are collected from the map with no further
sorting. -/
def get_transition_constraints {F E : Type} (ctx : ComputationContext F) (coin : Coin E) :
    List (TransitionConstraintGroup E) :=
  let target_degree := ctx.composition_degree + ctx.trace_poly_degree
  ((ctx.transition_constraint_degrees.enum.foldl
    (transition_step ctx.trace_length target_degree) ([], coin)).1).map Prod.snd

-- PERIODIC COLUMNS (src/common/src/air/mod.rs lines 91 to 125)
-- =========================================================================

/-- The key set of a cache after a list of lookups: each key is appended on
its first occurrence and left alone afterwards. -/
def keys_after (ks : List Nat) (es : List Nat) : List Nat :=
  es.foldl (fun ks e => if ks.any (fun k => k == e) then ks else ks ++ [e]) ks

/-- The distinct members of a list in order of first occurrence. -/
def first_occurrences (es : List Nat) : List Nat := keys_after [] es

/-- The loop of get_periodic_column_polys: each column's length must be at
least 2, a power of two and at most the trace length (the three asserts of
the Rust code, modelled as the InvalidPeriodicColumn error of the spec's
taxonomy); valid columns are interpolated with inverse twiddles cached by
cycle length. -/
def periodic_loop {F : Type} [Field F] (interp : List F → List F) (n : Nat) :
    List (List F) → List Nat → Except AirError (List (List F) × List Nat)
  | [], twiddle_map => .ok ([], twiddle_map)
  | column :: rest, twiddle_map =>
    if column.length < 2 then .error .invalidPeriodicColumn
    else if ¬ is_power_of_two column.length = true then .error .invalidPeriodicColumn
    else if n < column.length then .error .invalidPeriodicColumn
    else
      let twiddle_map :=
        if twiddle_map.any (fun k => k == column.length) then twiddle_map
        else twiddle_map ++ [column.length]
      match periodic_loop interp n rest twiddle_map with
      | .error e => .error e
      | .ok (polys, tm) => .ok (interp column :: polys, tm)

/-- Air::get_periodic_column_polys from src/common/src/air/mod.rs lines 91 to
125: every periodic column is validated and interpolated into a polynomial,
sharing inverse twiddles across columns of equal length through the cache. -/
def get_periodic_column_polys {F : Type} [Field F] (interp : List F → List F)
    (ctx : ComputationContext F) (columns : List (List F)) :
    Except AirError (List (List F)) :=
  match periodic_loop interp ctx.trace_length columns [] with
  | .error e => .error e
  | .ok (polys, _) => .ok polys

-- CONCRETE INSTANCES FOR WITNESSES
-- =========================================================================

deriving instance DecidableEq for Except

instance : Fact (Nat.Prime 17) := ⟨by norm_num⟩

/-- A concrete deterministic coin over the field with 17 elements. -/
def coin17 : Coin (ZMod 17) :=
  ⟨fun n => ((n : ZMod 17), ((n + 3 : Nat) : ZMod 17)), 0⟩

/-- The identity function as a concrete length-preserving stand-in for the
external interpolation routine in concrete instantiations. -/
def interp_id : List (ZMod 17) → List (ZMod 17) := fun v => v

/-- A concrete context: trace width 2, trace length 16 (the field with 17
elements has the primitive 16th root of unity 3), two transition degree
descriptors and blowup 4. -/
def ctx17 : ComputationContext (ZMod 17) :=
  ⟨2, 16, [⟨[(16, 2)]⟩, ⟨[(16, 1)]⟩], 4, 3⟩

-- HELPER LEMMAS
-- =========================================================================

theorem foldl_if_max (l : List Nat) (a : Nat) :
    l.foldl (fun m x => if m < x then x else m) a = l.foldr max a := by
  induction l generalizing a with
  | nil => rfl
  | cons x t ih =>
    have swap : ∀ (t : List Nat) (a x : Nat), t.foldr max (max a x) = max x (t.foldr max a) := by
      intro t
      induction t with
      | nil => intro a x; simp only [List.foldr_nil]; exact Nat.max_comm a x
      | cons y t ih2 =>
        intro a x
        simp only [List.foldr_cons, ih2]
        exact max_left_comm y x (t.foldr max a)
    have hif : (if a < x then x else a) = max a x := by
      rw [Nat.max_def]
      split <;> split <;> omega
    simp only [List.foldl_cons, List.foldr_cons, ih]
    rw [hif, swap]

theorem le_foldr_max (l : List Nat) (a x : Nat) (hx : x ∈ l) : x ≤ l.foldr max a := by
  induction l with
  | nil => cases hx
  | cons y t ih =>
    rcases List.mem_cons.mp hx with h | h
    · subst h; simp only [List.foldr_cons]; omega
    · have := ih h; simp only [List.foldr_cons]; omega

-- CLAIM THEOREMS
-- =========================================================================

/-- C6 counterexample: the Rust code stores the difference cast to u32, which
wraps: with an empty divisor (degree 0), trace polynomial degree 0 and
composition degree 2 to the 32, the hypothesis of the claim holds but the
stored degree adjustment is 0, not composition_degree + divisor.degree -
trace_poly_degree. -/
theorem boundary_group_adjustment_wrap_cex :
    (0 : Nat) ≤ 2 ^ 32 + (ConstraintDivisor.degree (F := ZMod 17) ⟨[], []⟩) ∧
    ¬ ((BoundaryConstraintGroup.new (F := ZMod 17) (E := ZMod 17)
        ⟨[], []⟩ 0 (2 ^ 32)).degree_adjustment =
      2 ^ 32 + (ConstraintDivisor.degree (F := ZMod 17) ⟨[], []⟩) - 0) := by
  constructor
  · exact Nat.zero_le _
  · decide

/-- C6 amended: the stored degree adjustment is the difference
composition_degree + divisor.degree - trace_poly_degree reduced modulo 2 to
the 32 (the u32 cast of the source); when composition_degree + divisor.degree
is at least trace_poly_degree and the difference fits in 32 bits, it equals
the difference exactly (a natural number, hence non-negative), equivalently
composition_degree plus divisor degree equals trace_poly_degree plus the
adjustment. -/
theorem boundary_group_new_degree_adjustment {F E : Type}
    (divisor : ConstraintDivisor F) (trace_poly_degree composition_degree : Nat)
    (h : trace_poly_degree ≤ composition_degree + divisor.degree)
    (hfit : composition_degree + divisor.degree - trace_poly_degree < 2 ^ 32) :
    (BoundaryConstraintGroup.new (F := F) (E := E)
        divisor trace_poly_degree composition_degree).degree_adjustment =
      composition_degree + divisor.degree - trace_poly_degree ∧
    composition_degree + divisor.degree =
      trace_poly_degree + (BoundaryConstraintGroup.new (F := F) (E := E)
        divisor trace_poly_degree composition_degree).degree_adjustment := by
  have hadj : (BoundaryConstraintGroup.new (F := F) (E := E)
      divisor trace_poly_degree composition_degree).degree_adjustment =
      composition_degree + divisor.degree - trace_poly_degree := by
    simp only [BoundaryConstraintGroup.new]
    exact Nat.mod_eq_of_lt hfit
  exact ⟨hadj, by omega⟩

/-- C6 witness: a concrete divisor of degree 4 with trace polynomial degree 3
and composition degree 12 gives adjustment 13, which fits in 32 bits. -/
theorem boundary_group_new_degree_adjustment_witness :
    ((3 : Nat) ≤ 12 + (ConstraintDivisor.degree (F := ZMod 17) ⟨[(4, 1)], []⟩) ∧
      12 + (ConstraintDivisor.degree (F := ZMod 17) ⟨[(4, 1)], []⟩) - 3 < 2 ^ 32) ∧
    ((BoundaryConstraintGroup.new (F := ZMod 17) (E := ZMod 17)
        ⟨[(4, 1)], []⟩ 3 12).degree_adjustment =
      12 + (ConstraintDivisor.degree (F := ZMod 17) ⟨[(4, 1)], []⟩) - 3 ∧
    12 + (ConstraintDivisor.degree (F := ZMod 17) ⟨[(4, 1)], []⟩) =
      3 + (BoundaryConstraintGroup.new (F := ZMod 17) (E := ZMod 17)
        ⟨[(4, 1)], []⟩ 3 12).degree_adjustment) :=
  ⟨⟨by decide, by decide⟩,
    boundary_group_new_degree_adjustment ⟨[(4, 1)], []⟩ 3 12 (by decide) (by decide)⟩

/-- C7: a boundary constraint built from a single-value assertion stores
poly equal to the one-element value list and poly_offset (0, 1), leaves the
twiddle cache unchanged, its result does not consult the cache, and its
evaluation at any point x and trace value t is t minus the lifted value,
independent of x. -/
theorem single_value_constraint_spec {F E : Type} [Field F] [Field E]
    (interp : List F → List F) (a : Assertion F) (inv_g : F)
    (tm : List Nat) (coin : Coin E) (v : F) (hv : a.values = [v]) :
    (BoundaryConstraint.new (E := E) interp a inv_g tm coin).1.poly = [v] ∧
    (BoundaryConstraint.new (E := E) interp a inv_g tm coin).1.poly_offset = (0, 1) ∧
    (BoundaryConstraint.new (E := E) interp a inv_g tm coin).2.1 = tm ∧
    (∀ tm2, (BoundaryConstraint.new (E := E) interp a inv_g tm2 coin).1 =
      (BoundaryConstraint.new (E := E) interp a inv_g tm coin).1) ∧
    ∀ (phi : F →+* E) (x t : E),
      BoundaryConstraint.evaluate_at phi
        (BoundaryConstraint.new (E := E) interp a inv_g tm coin).1 x t = t - phi v := by
  refine ⟨?_, ?_, ?_, ?_, ?_⟩
  · simp [BoundaryConstraint.new, hv]
  · simp [BoundaryConstraint.new, hv]
  · simp [BoundaryConstraint.new, hv]
  · intro tm2
    simp [BoundaryConstraint.new, hv]
  · intro phi x t
    simp [BoundaryConstraint.new, hv, BoundaryConstraint.evaluate_at]

/-- C7 witness: the single-value assertion asserting 7 on register 0 at step 0
over the field with 17 elements. -/
theorem single_value_constraint_spec_witness :
    ((⟨0, 0, 0, [7]⟩ : Assertion (ZMod 17)).values = [7]) ∧
    (BoundaryConstraint.new (E := ZMod 17) interp_id ⟨0, 0, 0, [7]⟩ 6 [] coin17).1.poly = [7] ∧
    BoundaryConstraint.evaluate_at (RingHom.id (ZMod 17))
      (BoundaryConstraint.new (E := ZMod 17) interp_id ⟨0, 0, 0, [7]⟩ 6 [] coin17).1 2 5 =
      5 - (7 : ZMod 17) := by
  have h := single_value_constraint_spec (E := ZMod 17) interp_id
    ⟨0, 0, 0, [7]⟩ 6 [] coin17 7 rfl
  exact ⟨rfl, h.1, h.2.2.2.2 (RingHom.id (ZMod 17)) 2 5⟩

/-- C10: max_poly_degree of a boundary constraint group holding at least one
constraint (whose polynomials are nonempty, as construction guarantees)
returns the maximum constraint polynomial length minus 1, while on a freshly
constructed group with zero constraints the unsigned subtraction underflows
(modelled as none), so callers must add a constraint first. -/
theorem max_poly_degree_spec {F E : Type} (g : BoundaryConstraintGroup F E)
    (h1 : g.constraints ≠ []) (h2 : ∀ c ∈ g.constraints, c.poly ≠ []) :
    g.max_poly_degree =
      some ((g.constraints.map (fun c => c.poly.length)).foldr max 0 - 1) ∧
    ∀ (d : ConstraintDivisor F) (tp cd : Nat),
      (BoundaryConstraintGroup.new (F := F) (E := E) d tp cd).max_poly_degree = none := by
  constructor
  · have hmax : g.constraints.foldl (fun m c => if m < c.poly.length then c.poly.length else m) 0
        = (g.constraints.map (fun c => c.poly.length)).foldr max 0 := by
      rw [← foldl_if_max, List.foldl_map]
    have hne : (g.constraints.map (fun c => c.poly.length)).foldr max 0 ≠ 0 := by
      cases hgc : g.constraints with
      | nil => exact absurd hgc h1
      | cons c rest =>
        have hcne : c.poly ≠ [] := h2 c (by rw [hgc]; exact List.mem_cons_self c rest)
        have hlen : 1 ≤ c.poly.length := List.length_pos.mpr hcne
        have hmem : c.poly.length ∈ (c :: rest).map (fun c => c.poly.length) := by
          simp
        have hle := le_foldr_max ((c :: rest).map (fun c => c.poly.length)) 0 _ hmem
        exact Nat.pos_iff_ne_zero.mp (Nat.lt_of_lt_of_le hlen hle)
    simp only [BoundaryConstraintGroup.max_poly_degree, hmax, if_neg hne]
  · intro d tp cd
    rfl

/-- C10 witness: a concrete group holding one constraint with a polynomial of
length 2 has max_poly_degree 1, and a freshly built group yields none. -/
theorem max_poly_degree_spec_witness :
    ((⟨[⟨0, [4, 5], (0, 1), (1, 2)⟩], ⟨[], []⟩, 0⟩ :
        BoundaryConstraintGroup (ZMod 17) (ZMod 17)).constraints ≠ []) ∧
    (⟨[⟨0, [4, 5], (0, 1), (1, 2)⟩], ⟨[], []⟩, 0⟩ :
        BoundaryConstraintGroup (ZMod 17) (ZMod 17)).max_poly_degree = some 1 ∧
    (BoundaryConstraintGroup.new (F := ZMod 17) (E := ZMod 17)
      ⟨[(1, 3)], []⟩ 3 12).max_poly_degree = none := by
  have h := max_poly_degree_spec
    (⟨[⟨0, [4, 5], (0, 1), (1, 2)⟩], ⟨[], []⟩, 0⟩ :
      BoundaryConstraintGroup (ZMod 17) (ZMod 17))
    (by decide) (by decide)
  exact ⟨by decide, h.1.trans (by decide), h.2 ⟨[(1, 3)], []⟩ 3 12⟩

/-- C8: ProofOptions::new succeeds exactly when num_queries lies in 1..=128,
blowup_factor is a power of two in 4..=256 and grinding_factor is at most 32;
any other input yields OptionOutOfRange for the offending parameter, and on
success the accessors return exactly the values passed in. -/
theorem proof_options_new_spec (nq bf gf : Nat) (hf : HashFunction) (fe : FieldExtension) :
    ((∃ o, ProofOptions.new nq bf gf hf fe = .ok o) ↔
      (1 ≤ nq ∧ nq ≤ 128 ∧ is_power_of_two bf = true ∧ 4 ≤ bf ∧ bf ≤ 256 ∧ gf ≤ 32)) ∧
    (∀ o, ProofOptions.new nq bf gf hf fe = .ok o →
      o.num_queries = nq ∧ o.blowup_factor = bf ∧ o.grinding_factor = gf) ∧
    (¬ (1 ≤ nq ∧ nq ≤ 128 ∧ is_power_of_two bf = true ∧ 4 ≤ bf ∧ bf ≤ 256 ∧ gf ≤ 32) →
      ∃ k, ProofOptions.new nq bf gf hf fe = .error (.optionOutOfRange k)) := by
  refine ⟨⟨?_, ?_⟩, ?_, ?_⟩
  · rintro ⟨o, ho⟩
    unfold ProofOptions.new at ho
    repeat' split at ho
    any_goals exact Except.noConfusion ho
    have hpt : is_power_of_two bf = true := by tauto
    refine ⟨by omega, by omega, hpt, by omega, by omega, by omega⟩
  · rintro ⟨h1, h2, h3, h4, h5, h6⟩
    refine ⟨⟨nq % 256, trailing_zeros64 bf, gf % 256, hf, fe⟩, ?_⟩
    unfold ProofOptions.new
    rw [if_neg (by omega), if_neg (by omega), if_neg (not_not_intro h3),
      if_neg (by omega), if_neg (by omega), if_neg (by omega)]
  · intro o ho
    unfold ProofOptions.new at ho
    repeat' split at ho
    any_goals exact Except.noConfusion ho
    have hpt : is_power_of_two bf = true := by tauto
    have hbf : bf ≠ 0 ∧ bf = 2 ^ trailing_zeros64 bf := by
      simpa [is_power_of_two] using hpt
    injection ho with ho2
    subst ho2
    refine ⟨?_, ?_, ?_⟩
    · show nq % 256 = nq
      omega
    · show 2 ^ trailing_zeros64 bf = bf
      exact hbf.2.symm
    · show gf % 256 = gf
      omega
  · intro hnot
    unfold ProofOptions.new
    by_cases h1 : nq = 0
    · exact ⟨.numQueries, by rw [if_pos h1]⟩
    · by_cases h2 : 128 < nq
      · exact ⟨.numQueries, by rw [if_neg h1, if_pos h2]⟩
      · by_cases h3 : is_power_of_two bf = true
        · by_cases h4 : bf < 4
          · exact ⟨.blowupFactor, by
              rw [if_neg h1, if_neg h2, if_neg (not_not_intro h3), if_pos h4]⟩
          · by_cases h5 : 256 < bf
            · exact ⟨.blowupFactor, by
                rw [if_neg h1, if_neg h2, if_neg (not_not_intro h3), if_neg h4, if_pos h5]⟩
            · by_cases h6 : 32 < gf
              · exact ⟨.grindingFactor, by
                  rw [if_neg h1, if_neg h2, if_neg (not_not_intro h3), if_neg h4,
                    if_neg h5, if_pos h6]⟩
              · exact absurd ⟨by omega, by omega, h3, by omega, by omega, by omega⟩ hnot
        · exact ⟨.blowupFactor, by rw [if_neg h1, if_neg h2, if_pos h3]⟩

/-- C8 witness: 27 queries, blowup 8 and grinding factor 16 are accepted and
read back unchanged. -/
theorem proof_options_new_spec_witness :
    (1 ≤ 27 ∧ 27 ≤ 128 ∧ is_power_of_two 8 = true ∧ 4 ≤ 8 ∧ 8 ≤ 256 ∧ 16 ≤ 32) ∧
    ((ProofOptions.new 27 8 16 .blake3_256 .noExt).map
      (fun o => (o.num_queries, o.blowup_factor, o.grinding_factor)) = .ok (27, 8, 16)) := by
  refine ⟨by decide, ?_⟩
  rcases ho : ProofOptions.new 27 8 16 .blake3_256 .noExt with e | o
  · have hok : except_is_ok (ProofOptions.new 27 8 16 .blake3_256 .noExt) = true := by decide
    rw [ho] at hok
    exact absurd hok (by simp [except_is_ok])
  · have h := (proof_options_new_spec 27 8 16 .blake3_256 .noExt).2.1 o ho
    simp [Except.map, h.1, h.2.1, h.2.2]

/-- C3: build_query_seed succeeds, returning the computed query seed, exactly
when the proof-of-work measure of the seed (the trailing-zero count of the
little-endian 64-bit head, which is the number of leading zero bits of the
seed read in byte order starting from the least significant bit) reaches the
grinding factor of the proof options, and otherwise returns
QuerySeedProofOfWorkVerificationFailed, for every hash function, every list of
FRI roots and every nonce. -/
theorem build_query_seed_spec (hash_fn : List Nat → List Nat)
    (fri_roots : List (List Nat)) (nonce : Nat) (options : ProofOptions) :
    (build_query_seed hash_fn fri_roots nonce options =
        .ok (compute_query_seed hash_fn fri_roots nonce) ↔
      options.grinding_factor ≤
        trailing_zeros64 (le_u64 ((compute_query_seed hash_fn fri_roots nonce).take 8))) ∧
    (build_query_seed hash_fn fri_roots nonce options =
        .error .querySeedProofOfWorkVerificationFailed ↔
      trailing_zeros64 (le_u64 ((compute_query_seed hash_fn fri_roots nonce).take 8)) <
        options.grinding_factor) := by
  simp only [build_query_seed]
  constructor
  · constructor
    · intro h
      split at h
      · exact Except.noConfusion h
      · omega
    · intro h
      rw [if_neg (by omega)]
  · constructor
    · intro h
      split at h
      · omega
      · exact Except.noConfusion h
    · intro h
      rw [if_pos h]

/-- C3 witness: a constant hash function whose output starts with the byte 8
(three trailing zero bits) passes a grinding factor of 3. -/
theorem build_query_seed_spec_witness :
    ((⟨27, 3, 3, .blake3_256, .noExt⟩ : ProofOptions).grinding_factor ≤
      trailing_zeros64 (le_u64 ((compute_query_seed
        (fun _ => 8 :: List.replicate 31 0) [[1, 2]] 5).take 8))) ∧
    build_query_seed (fun _ => 8 :: List.replicate 31 0) [[1, 2]] 5
        ⟨27, 3, 3, .blake3_256, .noExt⟩ =
      .ok (compute_query_seed (fun _ => 8 :: List.replicate 31 0) [[1, 2]] 5) :=
  ⟨by decide, ((build_query_seed_spec (fun _ => 8 :: List.replicate 31 0) [[1, 2]] 5
    ⟨27, 3, 3, .blake3_256, .noExt⟩).1).mpr (by decide)⟩

/-- C5: for a sequence assertion accepted by validation with more than one
value and nonzero first_step, the boundary constraint stores poly_offset
(first_step, inv_g to the first_step) where inv_g is the inverse trace-domain
generator, and evaluating it at x with trace value t gives t minus P evaluated
at x times g to the minus first_step, where P is the polynomial produced by
the external inverse-FFT interpolation of the assertion values (interp, a
length-preserving function, as the in-place Rust interpolation is). -/
theorem sequence_constraint_eval_spec {F E : Type} [Field F] [Field E]
    (interp : List F → List F) (a : Assertion F) (inv_g : F)
    (tm : List Nat) (coin : Coin E)
    (hinterp : (interp a.values).length = a.values.length)
    (h1 : 1 < a.values.length) (h2 : a.first_step ≠ 0) :
    (BoundaryConstraint.new (E := E) interp a inv_g tm coin).1.poly_offset =
      (a.first_step, inv_g ^ a.first_step) ∧
    ∀ (phi : F →+* E) (x t : E),
      BoundaryConstraint.evaluate_at phi
          (BoundaryConstraint.new (E := E) interp a inv_g tm coin).1 x t =
        t - polynom_eval ((interp a.values).map (fun b => phi b))
          (x * phi (inv_g ^ a.first_step)) := by
  constructor
  · simp [BoundaryConstraint.new, if_pos h1, h2]
  · intro phi x t
    have hne : ¬ (interp a.values).length = 1 := by omega
    simp [BoundaryConstraint.new, if_pos h1, h2, BoundaryConstraint.evaluate_at, hne]

/-- C5 witness: the sequence assertion on register 0 with first step 3, stride
8 and values [1, 2] over the field with 17 elements, with the inverse
generator 6 of the generator 3. -/
theorem sequence_constraint_eval_spec_witness :
    ((interp_id [1, 2]).length = ([1, 2] : List (ZMod 17)).length ∧
      1 < ([1, 2] : List (ZMod 17)).length ∧ (3 : Nat) ≠ 0) ∧
    (BoundaryConstraint.new (E := ZMod 17) interp_id ⟨0, 3, 8, [1, 2]⟩ 6 [] coin17).1.poly_offset =
      (3, 6 ^ 3) ∧
    BoundaryConstraint.evaluate_at (RingHom.id (ZMod 17))
        (BoundaryConstraint.new (E := ZMod 17) interp_id ⟨0, 3, 8, [1, 2]⟩ 6 [] coin17).1 2 5 =
      5 - polynom_eval ((interp_id [1, 2]).map (fun b => (RingHom.id (ZMod 17)) b))
        (2 * (RingHom.id (ZMod 17)) (6 ^ 3)) := by
  have h := sequence_constraint_eval_spec (E := ZMod 17) interp_id
    ⟨0, 3, 8, [1, 2]⟩ 6 [] coin17 rfl (by decide) (by decide)
  exact ⟨⟨rfl, by decide, by decide⟩, h.1, h.2 (RingHom.id (ZMod 17)) 2 5⟩

theorem periodic_loop_spec {F : Type} [Field F] (interp : List F → List F) (n : Nat)
    (cols : List (List F)) : ∀ (tm : List Nat),
    (cols.all (fun c => decide (2 ≤ c.length) && is_power_of_two c.length &&
        decide (c.length ≤ n)) = true →
      periodic_loop interp n cols tm =
        .ok (cols.map interp, keys_after tm (cols.map List.length))) ∧
    (cols.all (fun c => decide (2 ≤ c.length) && is_power_of_two c.length &&
        decide (c.length ≤ n)) = false →
      periodic_loop interp n cols tm = .error .invalidPeriodicColumn) := by
  induction cols with
  | nil =>
    intro tm
    exact ⟨fun _ => rfl, fun h => by simp at h⟩
  | cons col rest ih =>
    intro tm
    constructor
    · intro h
      simp only [List.all_cons, Bool.and_eq_true, decide_eq_true_eq] at h
      obtain ⟨⟨⟨hge, hpow⟩, hle⟩, hrest⟩ := h
      simp only [periodic_loop]
      rw [if_neg (by omega), if_neg (not_not_intro hpow), if_neg (by omega)]
      rw [(ih _).1 (by simpa using hrest)]
      simp [keys_after]
    · intro h
      simp only [periodic_loop]
      by_cases hge : col.length < 2
      · rw [if_pos hge]
      · rw [if_neg hge]
        by_cases hpow : is_power_of_two col.length = true
        · rw [if_neg (not_not_intro hpow)]
          by_cases hle : n < col.length
          · rw [if_pos hle]
          · rw [if_neg hle]
            have hrest : rest.all (fun c => decide (2 ≤ c.length) &&
                is_power_of_two c.length && decide (c.length ≤ n)) = false := by
              simp only [List.all_cons] at h
              simp only [Bool.and_eq_false_iff] at h
              rcases h with h | h
              · exfalso
                rcases h with h | h
                · rcases h with h | h
                  · simp at h; omega
                  · exact absurd hpow (by simp [h])
                · simp at h; omega
              · exact h
            rw [(ih _).2 hrest]
        · rw [if_pos (by simpa using hpow)]

/-- C9: get_periodic_column_polys fails, with the InvalidPeriodicColumn error
of the taxonomy, exactly when some periodic column has a length that is
smaller than 2, not a power of two, or larger than the trace length; on
success it returns the inverse-FFT interpolation (the external interp) of
every column, and the twiddle cache ends holding exactly the distinct column
lengths in first-occurrence order, twiddles being shared across columns of
equal length. -/
theorem periodic_column_polys_spec {F : Type} [Field F] (interp : List F → List F)
    (ctx : ComputationContext F) (columns : List (List F)) :
    (except_is_ok (get_periodic_column_polys interp ctx columns) =
      columns.all (fun c => decide (2 ≤ c.length) && is_power_of_two c.length &&
        decide (c.length ≤ ctx.trace_length))) ∧
    (columns.all (fun c => decide (2 ≤ c.length) && is_power_of_two c.length &&
        decide (c.length ≤ ctx.trace_length)) = true →
      get_periodic_column_polys interp ctx columns = .ok (columns.map interp) ∧
      periodic_loop interp ctx.trace_length columns [] =
        .ok (columns.map interp, first_occurrences (columns.map List.length))) ∧
    (columns.all (fun c => decide (2 ≤ c.length) && is_power_of_two c.length &&
        decide (c.length ≤ ctx.trace_length)) = false →
      get_periodic_column_polys interp ctx columns = .error .invalidPeriodicColumn) := by
  have hspec := periodic_loop_spec interp ctx.trace_length columns []
  refine ⟨?_, ?_, ?_⟩
  · cases hall : columns.all (fun c => decide (2 ≤ c.length) && is_power_of_two c.length &&
        decide (c.length ≤ ctx.trace_length)) with
    | false =>
      unfold get_periodic_column_polys
      rw [hspec.2 hall]
      rfl
    | true =>
      unfold get_periodic_column_polys
      rw [hspec.1 hall]
      rfl
  · intro hall
    have hloop := hspec.1 hall
    refine ⟨?_, hloop⟩
    unfold get_periodic_column_polys
    rw [hloop]
  · intro hall
    unfold get_periodic_column_polys
    rw [hspec.2 hall]

/-- C9 witness: three valid periodic columns of lengths 2, 4 and 2 over the
field with 17 elements and the context of trace length 16; the emitted
polynomials are the interpolations and the cache holds the lengths 2 and 4. -/
theorem periodic_column_polys_spec_witness :
    ([[1, 2], [3, 4, 5, 6], [7, 8]] : List (List (ZMod 17))).all
      (fun c => decide (2 ≤ c.length) && is_power_of_two c.length &&
        decide (c.length ≤ ctx17.trace_length)) = true ∧
    get_periodic_column_polys interp_id ctx17 [[1, 2], [3, 4, 5, 6], [7, 8]] =
      .ok ([[1, 2], [3, 4, 5, 6], [7, 8]].map interp_id) ∧
    periodic_loop interp_id ctx17.trace_length [[1, 2], [3, 4, 5, 6], [7, 8]] [] =
      .ok ([[1, 2], [3, 4, 5, 6], [7, 8]].map interp_id,
        first_occurrences ([[1, 2], [3, 4, 5, 6], [7, 8]].map
          (List.length (α := ZMod 17)))) := by
  have h := (periodic_column_polys_spec interp_id ctx17
    [[1, 2], [3, 4, 5, 6], [7, 8]]).2.1 (by decide)
  exact ⟨by decide, h.1, h.2⟩

/-- C4 counterexample: running the boundary loop of get_boundary_constraints
over one assertion advances the coin by one pair draw, not by the two pair
draws (four field elements) the claim states. -/
theorem boundary_coin_draws_cex :
    ¬ ((boundary_loop interp_id ctx17 [⟨0, 0, 0, [7]⟩] coin17).coin.pos = 2 * 1) := by
  decide

/-- C4 amended: during get_boundary_constraints exactly one random field pair
(two field elements) is drawn from the coin per assertion processed, so after
the boundary loop over n assertions the coin has advanced by exactly n pair
draws. -/
theorem boundary_coin_one_pair_per_assertion {F E : Type} [Field F]
    (interp : List F → List F) (ctx : ComputationContext F)
    (assertions : List (Assertion F)) (coin : Coin E) :
    (boundary_loop interp ctx assertions coin).coin.pos = coin.pos + assertions.length := by
  have hstep : ∀ (l : List (Assertion F)) (st : BoundaryState F E),
      (l.foldl (boundary_step interp ctx ctx.trace_domain_generator⁻¹) st).coin.pos =
        st.coin.pos + l.length := by
    intro l
    induction l with
    | nil => intro st; simp
    | cons a t ih =>
      intro st
      simp only [List.foldl_cons, ih, List.length_cons]
      have : (boundary_step interp ctx ctx.trace_domain_generator⁻¹ st a).coin.pos =
          st.coin.pos + 1 := rfl
      omega
  exact hstep assertions ⟨[], [], coin⟩

-- TRANSITION EMISSION ORDER
-- =========================================================================

/-- A strict ascending-order check on a list of natural numbers. -/
def sorted_strictly_ascending : List Nat → Bool
  | [] => true
  | [_] => true
  | a :: b :: t => decide (a < b) && sorted_strictly_ascending (b :: t)

/-- C1 counterexample: with the concrete context holding two transition degree
descriptors of evaluation degrees 30 and 15 in that order, the emitted group
list has evaluation degrees [30, 15], which is not sorted in ascending
order. -/
theorem transition_groups_unsorted_cex :
    ¬ (sorted_strictly_ascending ((get_transition_constraints ctx17 coin17).map
      (fun g => g.degree.get_evaluation_degree ctx17.trace_length)) = true) := by
  decide

theorem transition_fold_keys {E : Type} (n target : Nat)
    (pl : List (Nat × TransitionConstraintDegree)) :
    ∀ (gs : List (Nat × TransitionConstraintGroup E)) (coin : Coin E),
    (∀ p ∈ gs, p.2.degree.get_evaluation_degree n = p.1) →
    ((pl.foldl (transition_step n target) (gs, coin)).1.map Prod.fst =
      keys_after (gs.map Prod.fst) (pl.map (fun p => p.2.get_evaluation_degree n))) ∧
    (∀ p ∈ (pl.foldl (transition_step n target) (gs, coin)).1,
      p.2.degree.get_evaluation_degree n = p.1) := by
  induction pl with
  | nil =>
    intro gs coin hinv
    exact ⟨rfl, hinv⟩
  | cons q rest ih =>
    intro gs coin hinv
    rcases hst : transition_step n target (gs, coin) q with ⟨gs2, coin2⟩
    set ed := q.2.get_evaluation_degree n with hed
    have hgs2 : gs2 = (if gs.any (fun p => p.1 == ed) then gs
        else gs ++ [(ed, TransitionConstraintGroup.new q.2 ((target - ed) % 2 ^ 32))]).map
        (fun p => if p.1 == ed then (p.1, p.2.add q.1 (coin.seq coin.pos)) else p) := by
      have hc := congrArg Prod.fst hst
      simpa [transition_step, Coin.draw_pair, hed] using hc.symm
    have upd_fst : ((if gs.any (fun p => p.1 == ed) then gs
        else gs ++ [(ed, TransitionConstraintGroup.new q.2 ((target - ed) % 2 ^ 32))]).map
        (fun p => if p.1 == ed then (p.1, p.2.add q.1 (coin.seq coin.pos)) else p)).map
          Prod.fst =
        (if gs.any (fun p => p.1 == ed) then gs
        else gs ++ [(ed, TransitionConstraintGroup.new q.2 ((target - ed) % 2 ^ 32))]).map Prod.fst := by
      rw [List.map_map]
      refine List.map_congr_left ?_
      intro p _
      simp only [Function.comp_apply]
      split <;> rfl
    have hfst2 : gs2.map Prod.fst =
        (if (gs.map Prod.fst).any (fun k => k == ed) then gs.map Prod.fst
         else gs.map Prod.fst ++ [ed]) := by
      rw [hgs2, upd_fst]
      by_cases hc : gs.any (fun p => p.1 == ed) = true
      · rw [if_pos hc, if_pos (by simpa [List.any_map] using hc)]
      · rw [if_neg hc, if_neg (by simpa [List.any_map] using hc), List.map_append]
        rfl
    have hinv1 : ∀ p0 ∈ (if gs.any (fun p => p.1 == ed) then gs
        else gs ++ [(ed, TransitionConstraintGroup.new q.2 ((target - ed) % 2 ^ 32))]),
        p0.2.degree.get_evaluation_degree n = p0.1 := by
      intro p0 hp0
      by_cases hc : gs.any (fun p => p.1 == ed) = true
      · rw [if_pos hc] at hp0
        exact hinv p0 hp0
      · rw [if_neg hc] at hp0
        rcases List.mem_append.mp hp0 with h | h
        · exact hinv p0 h
        · have hq : p0 = (ed, TransitionConstraintGroup.new q.2 ((target - ed) % 2 ^ 32)) := by
            simpa using h
          rw [hq]
          show (TransitionConstraintGroup.new (E := E) q.2
            (target - ed)).degree.get_evaluation_degree n = ed
          show q.2.get_evaluation_degree n = ed
          exact hed.symm
    have hinv2 : ∀ p ∈ gs2, p.2.degree.get_evaluation_degree n = p.1 := by
      intro p hp
      rw [hgs2] at hp
      rcases List.mem_map.mp hp with ⟨p0, hp0, rfl⟩
      have h0 := hinv1 p0 hp0
      split
      · simpa [TransitionConstraintGroup.add] using h0
      · exact h0
    have IH := ih gs2 coin2 hinv2
    constructor
    · rw [List.foldl_cons, hst, IH.1, hfst2]
      simp only [List.map_cons, keys_after, List.foldl_cons]
    · rw [List.foldl_cons, hst]
      exact IH.2

/-- C1 amended: the list returned by get_transition_constraints holds one
group per distinct evaluation degree, emitted in map order, which the
insertion-order model fixes as the order of first occurrence of each
evaluation degree in the transition constraint degree list; no sort by
evaluation degree is applied. -/
theorem transition_groups_emission_order {F E : Type}
    (ctx : ComputationContext F) (coin : Coin E) :
    (get_transition_constraints ctx coin).map
        (fun g => g.degree.get_evaluation_degree ctx.trace_length) =
      first_occurrences (ctx.transition_constraint_degrees.map
        (fun d => d.get_evaluation_degree ctx.trace_length)) := by
  have h := transition_fold_keys (E := E) ctx.trace_length
    (ctx.composition_degree + ctx.trace_poly_degree)
    ctx.transition_constraint_degrees.enum [] coin (by intro p hp; cases hp)
  unfold get_transition_constraints
  rw [List.map_map]
  have hcongr : ((ctx.transition_constraint_degrees.enum.foldl
      (transition_step ctx.trace_length
        (ctx.composition_degree + ctx.trace_poly_degree)) ([], coin)).1).map
      ((fun g => g.degree.get_evaluation_degree ctx.trace_length) ∘ Prod.snd) =
      ((ctx.transition_constraint_degrees.enum.foldl
      (transition_step ctx.trace_length
        (ctx.composition_degree + ctx.trace_poly_degree)) ([], coin)).1).map Prod.fst := by
    refine List.map_congr_left ?_
    intro p hp
    exact h.2 p hp
  rw [hcongr, h.1]
  have henum : ctx.transition_constraint_degrees.enum.map
      (fun p => p.2.get_evaluation_degree ctx.trace_length) =
      ctx.transition_constraint_degrees.map
        (fun d => d.get_evaluation_degree ctx.trace_length) := by
    rw [show (fun p : Nat × TransitionConstraintDegree =>
        p.2.get_evaluation_degree ctx.trace_length) =
      (fun d : TransitionConstraintDegree =>
        d.get_evaluation_degree ctx.trace_length) ∘ Prod.snd from rfl]
    rw [← List.map_map, List.enum_map_snd]
  rw [henum]
  rfl

-- PERMUTATION INVARIANCE OF THE BOUNDARY PIPELINE
-- =========================================================================

theorem decide_nat_eq_comm (x y : Nat) : decide (x = y) = decide (y = x) := by
  by_cases h : x = y
  · simp [h]
  · simp [h, Ne.symm h]

theorem overlaps_with_comm {F : Type} (a b : Assertion F) :
    a.overlaps_with b = b.overlaps_with a := by
  by_cases ha : a.stride = 0 <;> by_cases hb : b.stride = 0 <;>
    simp [Assertion.overlaps_with, ha, hb, eq_comm, Nat.min_comm]

theorem overlap_chk_comm {F : Type} (a b : Assertion F) :
    (decide (a.register = b.register) && a.overlaps_with b) =
      (decide (b.register = a.register) && b.overlaps_with a) := by
  rw [decide_nat_eq_comm, overlaps_with_comm]

theorem assertion_lt_iff {F : Type} (a b : Assertion F) :
    assertion_lt a b = true ↔
      (a.stride < b.stride ∨ (a.stride = b.stride ∧
        (a.first_step < b.first_step ∨
          (a.first_step = b.first_step ∧ a.register < b.register)))) := by
  simp [assertion_lt]

theorem assertion_key_eq_iff {F : Type} (a b : Assertion F) :
    assertion_key_eq a b = true ↔
      (a.stride = b.stride ∧ a.first_step = b.first_step ∧ a.register = b.register) := by
  simp [assertion_key_eq, and_assoc]

theorem assertion_lt_trans {F : Type} (a b c : Assertion F)
    (h1 : assertion_lt a b = true) (h2 : assertion_lt b c = true) :
    assertion_lt a c = true := by
  rw [assertion_lt_iff] at h1 h2 ⊢
  omega

theorem assertion_lt_asymm {F : Type} (a b : Assertion F)
    (h1 : assertion_lt a b = true) (h2 : assertion_lt b a = true) : False := by
  rw [assertion_lt_iff] at h1 h2
  omega

theorem assertion_key_eq_of_not_lt {F : Type} (a b : Assertion F)
    (h1 : ¬ assertion_lt b a = true) (h2 : ¬ assertion_key_eq a b = true) :
    assertion_lt a b = true := by
  rw [assertion_lt_iff] at h1 ⊢
  rw [assertion_key_eq_iff] at h2
  omega

theorem overlap_of_key_eq {F : Type} (a b : Assertion F)
    (h : assertion_key_eq a b = true) :
    (decide (b.register = a.register) && b.overlaps_with a) = true := by
  rw [assertion_key_eq_iff] at h
  obtain ⟨hs, hf, hr⟩ := h
  by_cases hb : b.stride = 0
  · have ha : a.stride = 0 := by omega
    simp [Assertion.overlaps_with, ha, hb, hr, hf]
  · have ha : ¬ a.stride = 0 := by omega
    simp [Assertion.overlaps_with, ha, hb, hr, hf, hs]

theorem check_assertion_ok {F : Type} [Field F] (ctx : ComputationContext F)
    (acc : List (Assertion F)) (a : Assertion F)
    (h : check_assertion ctx acc a = .ok ()) :
    a.validate_trace_width ctx.trace_width = true ∧
    a.validate_trace_length ctx.trace_length = true ∧
    ∀ b ∈ acc, (decide (b.register = a.register) && b.overlaps_with a) = false := by
  unfold check_assertion at h
  split at h
  · cases h
  · split at h
    · cases h
    · split at h
      · cases h
      · rename_i hw hl hov
        refine ⟨by tauto, by tauto, ?_⟩
        intro b hb
        cases hfb : (decide (b.register = a.register) && b.overlaps_with a)
        · rfl
        · exact absurd (List.any_eq_true.mpr ⟨b, hb, hfb⟩) hov

theorem check_assertion_ok_of {F : Type} [Field F] (ctx : ComputationContext F)
    (acc : List (Assertion F)) (a : Assertion F)
    (hw : a.validate_trace_width ctx.trace_width = true)
    (hl : a.validate_trace_length ctx.trace_length = true)
    (hov : ∀ b ∈ acc, (decide (b.register = a.register) && b.overlaps_with a) = false) :
    check_assertion ctx acc a = .ok () := by
  unfold check_assertion
  rw [if_neg (not_not_intro hw), if_neg (not_not_intro hl), if_neg ?_]
  intro hany
  rcases List.any_eq_true.mp hany with ⟨b, hb, hfb⟩
  exact absurd hfb (by rw [hov b hb]; simp)

theorem insert_sorted_mem {F : Type} (a : Assertion F) :
    ∀ (l : List (Assertion F)) (x : Assertion F), x ∈ insert_sorted a l → x = a ∨ x ∈ l := by
  intro l
  induction l with
  | nil =>
    intro x hx
    simp only [insert_sorted] at hx
    exact .inl (by simpa using hx)
  | cons b t ih =>
    intro x hx
    simp only [insert_sorted] at hx
    split at hx
    · rcases List.mem_cons.mp hx with h | h
      · exact .inr (by simp [h])
      · rcases ih x h with h2 | h2
        · exact .inl h2
        · exact .inr (List.mem_cons_of_mem b h2)
    · split at hx
      · exact .inr hx
      · rcases List.mem_cons.mp hx with h | h
        · exact .inl h
        · exact .inr h

theorem insert_sorted_perm {F : Type} (a : Assertion F) :
    ∀ (l : List (Assertion F)), (∀ b ∈ l, assertion_key_eq a b = false) →
      (insert_sorted a l).Perm (a :: l) := by
  intro l
  induction l with
  | nil =>
    intro _
    exact List.Perm.refl _
  | cons b t ih =>
    intro hkey
    simp only [insert_sorted]
    split
    · have hp := ih (fun x hx => hkey x (List.mem_cons_of_mem b hx))
      exact (hp.cons b).trans (List.Perm.swap a b t)
    · split
      · rename_i hlt hkq
        exact absurd hkq (by rw [hkey b (List.mem_cons_self b t)]; simp)
      · exact List.Perm.refl _

theorem insert_sorted_pairwise {F : Type} (a : Assertion F) :
    ∀ (l : List (Assertion F)),
      l.Pairwise (fun x y => assertion_lt x y = true) →
      (∀ b ∈ l, assertion_key_eq a b = false) →
      (insert_sorted a l).Pairwise (fun x y => assertion_lt x y = true) := by
  intro l
  induction l with
  | nil =>
    intro _ _
    simp [insert_sorted]
  | cons b t ih =>
    intro hs hkey
    have hsb := List.pairwise_cons.mp hs
    simp only [insert_sorted]
    split
    · rename_i hlt
      refine List.pairwise_cons.mpr ⟨?_, ih hsb.2 (fun x hx => hkey x (List.mem_cons_of_mem b hx))⟩
      intro x hx
      rcases insert_sorted_mem a t x hx with h | h
      · rw [h]; exact hlt
      · exact hsb.1 x h
    · split
      · exact hs
      · rename_i hnlt hnkq
        have hab : assertion_lt a b = true :=
          assertion_key_eq_of_not_lt a b hnlt (by
            rw [hkey b (List.mem_cons_self b t)]; simp)
        refine List.pairwise_cons.mpr ⟨?_, hs⟩
        intro x hx
        rcases List.mem_cons.mp hx with h | h
        · rw [h]; exact hab
        · exact assertion_lt_trans a b x hab (hsb.1 x h)

theorem prep_loop_ok {F : Type} [Field F] (ctx : ComputationContext F) :
    ∀ (rest acc s : List (Assertion F)),
    acc.Pairwise (fun x y => assertion_lt x y = true) →
    prep_loop ctx acc rest = .ok s →
    (s.Pairwise (fun x y => assertion_lt x y = true) ∧ s.Perm (acc ++ rest)) ∧
    ((∀ a ∈ rest, a.validate_trace_width ctx.trace_width = true ∧
        a.validate_trace_length ctx.trace_length = true) ∧
      rest.Pairwise (fun x y =>
        (decide (x.register = y.register) && x.overlaps_with y) = false) ∧
      (∀ a ∈ rest, ∀ b ∈ acc,
        (decide (b.register = a.register) && b.overlaps_with a) = false)) := by
  intro rest
  induction rest with
  | nil =>
    intro acc s hacc h
    have hs : s = acc := by
      simp only [prep_loop] at h
      exact (Except.ok.injEq _ _).mp h.symm
    subst hs
    refine ⟨⟨hacc, by simp⟩, by simp, List.Pairwise.nil, by simp⟩
  | cons a rest ih =>
    intro acc s hacc h
    simp only [prep_loop] at h
    cases hchk : check_assertion ctx acc a with
    | error e =>
      rw [hchk] at h
      cases h
    | ok u =>
      cases u
      rw [hchk] at h
      obtain ⟨hw, hl, hov⟩ := check_assertion_ok ctx acc a hchk
      have hkey : ∀ b ∈ acc, assertion_key_eq a b = false := by
        intro b hb
        cases hk : assertion_key_eq a b
        · rfl
        · exact absurd (overlap_of_key_eq a b hk) (by rw [hov b hb]; simp)
      have hacc2 := insert_sorted_pairwise a acc hacc hkey
      have hip := insert_sorted_perm a acc hkey
      have IH := ih (insert_sorted a acc) s hacc2 h
      refine ⟨⟨IH.1.1, ?_⟩, ?_, ?_, ?_⟩
      · have h1 : s.Perm (insert_sorted a acc ++ rest) := IH.1.2
        have h2 : (insert_sorted a acc ++ rest).Perm ((a :: acc) ++ rest) :=
          hip.append_right rest
        have h3 : (acc ++ a :: rest).Perm (a :: (acc ++ rest)) := List.perm_middle
        exact (h1.trans h2).trans h3.symm
      · intro x hx
        rcases List.mem_cons.mp hx with h1 | h1
        · rw [h1]; exact ⟨hw, hl⟩
        · exact IH.2.1 x h1
      · refine List.pairwise_cons.mpr ⟨?_, IH.2.2.1⟩
        intro y hy
        have := IH.2.2.2 y hy a (hip.symm.mem_iff.mp (List.mem_cons_self a acc))
        rw [← this, overlap_chk_comm]
      · intro x hx b hb
        rcases List.mem_cons.mp hx with h1 | h1
        · rw [h1]; exact hov b hb
        · exact IH.2.2.2 x h1 b (hip.symm.mem_iff.mp (List.mem_cons_of_mem a hb))

theorem prep_loop_complete {F : Type} [Field F] (ctx : ComputationContext F) :
    ∀ (rest acc : List (Assertion F)),
    (∀ a ∈ rest, a.validate_trace_width ctx.trace_width = true ∧
        a.validate_trace_length ctx.trace_length = true) →
    rest.Pairwise (fun x y =>
      (decide (x.register = y.register) && x.overlaps_with y) = false) →
    (∀ a ∈ rest, ∀ b ∈ acc,
      (decide (b.register = a.register) && b.overlaps_with a) = false) →
    ∃ s, prep_loop ctx acc rest = .ok s := by
  intro rest
  induction rest with
  | nil =>
    intro acc _ _ _
    exact ⟨acc, rfl⟩
  | cons a rest ih =>
    intro acc hvalid hpair hacc
    have hchk : check_assertion ctx acc a = .ok () :=
      check_assertion_ok_of ctx acc a
        (hvalid a (List.mem_cons_self a rest)).1
        (hvalid a (List.mem_cons_self a rest)).2
        (fun b hb => hacc a (List.mem_cons_self a rest) b hb)
    have hpc := List.pairwise_cons.mp hpair
    have hnext : ∀ x ∈ rest, ∀ b ∈ insert_sorted a acc,
        (decide (b.register = x.register) && b.overlaps_with x) = false := by
      intro x hx b hb
      rcases insert_sorted_mem a acc b hb with h1 | h1
      · rw [h1]
        exact hpc.1 x hx
      · exact hacc x (List.mem_cons_of_mem a hx) b h1
    obtain ⟨s, hs⟩ := ih (insert_sorted a acc)
      (fun x hx => hvalid x (List.mem_cons_of_mem a hx)) hpc.2 hnext
    refine ⟨s, ?_⟩
    simp only [prep_loop, hchk]
    exact hs

theorem prepare_assertions_perm {F : Type} [Field F] (ctx : ComputationContext F)
    (l1 l2 s : List (Assertion F)) (hperm : l1.Perm l2)
    (h : prepare_assertions ctx l1 = .ok s) :
    prepare_assertions ctx l2 = .ok s := by
  have H1 := prep_loop_ok ctx l1 [] s List.Pairwise.nil h
  have hsymm : Symmetric (fun x y : Assertion F =>
      (decide (x.register = y.register) && x.overlaps_with y) = false) := by
    intro x y hxy
    rw [overlap_chk_comm]
    exact hxy
  have hvalid2 : ∀ a ∈ l2, a.validate_trace_width ctx.trace_width = true ∧
      a.validate_trace_length ctx.trace_length = true :=
    fun a ha => H1.2.1 a (hperm.mem_iff.mpr ha)
  have hpair2 : l2.Pairwise (fun x y =>
      (decide (x.register = y.register) && x.overlaps_with y) = false) :=
    (List.Perm.pairwise_iff (fun {x y} h => hsymm h) hperm).mp H1.2.2.1
  obtain ⟨s2, hs2⟩ := prep_loop_complete ctx l2 [] hvalid2 hpair2
    (fun a _ b hb => absurd hb (List.not_mem_nil b))
  have H2 := prep_loop_ok ctx l2 [] s2 List.Pairwise.nil hs2
  have hperm12 : s.Perm s2 := by
    have h1 : s.Perm l1 := by simpa using H1.1.2
    have h2 : s2.Perm l2 := by simpa using H2.1.2
    exact (h1.trans hperm).trans h2.symm
  haveI : IsAntisymm (Assertion F) (fun x y => assertion_lt x y = true) :=
    ⟨fun a b h1 h2 => (assertion_lt_asymm a b h1 h2).elim⟩
  have heq : s = s2 := List.eq_of_perm_of_sorted hperm12 H1.1.1 H2.1.1
  rw [heq]
  exact hs2

theorem insert_by_adjustment_perm {F E : Type} (g : BoundaryConstraintGroup F E) :
    ∀ l : List (BoundaryConstraintGroup F E), (insert_by_adjustment g l).Perm (g :: l) := by
  intro l
  induction l with
  | nil => exact List.Perm.refl _
  | cons h t ih =>
    simp only [insert_by_adjustment]
    split
    · exact (ih.cons h).trans (List.Perm.swap g h t)
    · exact List.Perm.refl _

theorem sort_by_adjustment_perm {F E : Type} (l : List (BoundaryConstraintGroup F E)) :
    (sort_by_adjustment l).Perm l := by
  induction l with
  | nil => exact List.Perm.refl _
  | cons g t ih =>
    simp only [sort_by_adjustment, List.foldr_cons]
    exact (insert_by_adjustment_perm g _).trans (ih.cons g)

/-- C2 counterexample: two accepted single-step assertions produce two groups
sharing degree adjustment 46, so the stable sort leaves them in the hash map's
iteration order; the identity and the reversal are both legitimate iteration
orders of the same map entries (the reversal of a list is a permutation of
it), and they produce different group lists for the very same accepted input
(a permutation of itself), refuting the claimed identical output. -/
theorem boundary_constraints_order_cex :
    (∀ l : List ((Nat × Nat) × BoundaryConstraintGroup (ZMod 17) (ZMod 17)),
      (l.reverse).Perm l) ∧
    except_is_ok (get_boundary_constraints (E := ZMod 17) interp_id ctx17
      [⟨0, 0, 0, [7]⟩, ⟨1, 8, 0, [5]⟩] coin17 (fun l => l)) = true ∧
    except_is_ok (get_boundary_constraints (E := ZMod 17) interp_id ctx17
      [⟨0, 0, 0, [7]⟩, ⟨1, 8, 0, [5]⟩] coin17 (fun l => l.reverse)) = true ∧
    get_boundary_constraints (E := ZMod 17) interp_id ctx17
        [⟨0, 0, 0, [7]⟩, ⟨1, 8, 0, [5]⟩] coin17 (fun l => l.reverse) ≠
      get_boundary_constraints (E := ZMod 17) interp_id ctx17
        [⟨0, 0, 0, [7]⟩, ⟨1, 8, 0, [5]⟩] coin17 (fun l => l) :=
  ⟨fun l => List.reverse_perm l, by decide, by decide, by decide⟩

/-- C2 amended: holding the map iteration order fixed, permuting the
assertion list yields identical output: same group list, same constraint
order inside each group, same coefficients on the same assertions. Across two
runs whose (unspecified) iteration orders may differ, the group lists agree
up to permutation: every group, with its constraints in order and its
coefficients, appears in both lists; only the relative order of groups with
equal degree adjustment can differ, because the hash map's iteration order is
unspecified and the stable sort preserves it among such groups. -/
theorem boundary_constraints_perm_invariant {F E : Type} [Field F]
    (interp : List F → List F) (ctx : ComputationContext F)
    (l1 l2 : List (Assertion F)) (coin : Coin E)
    (out : List (BoundaryConstraintGroup F E))
    (iter1 iter2 : List ((Nat × Nat) × BoundaryConstraintGroup F E) →
      List ((Nat × Nat) × BoundaryConstraintGroup F E))
    (hiter1 : ∀ l, (iter1 l).Perm l) (hiter2 : ∀ l, (iter2 l).Perm l)
    (hperm : l1.Perm l2)
    (h1 : get_boundary_constraints interp ctx l1 coin iter1 = .ok out) :
    get_boundary_constraints interp ctx l2 coin iter1 = .ok out ∧
    ∃ out2, get_boundary_constraints interp ctx l2 coin iter2 = .ok out2 ∧
      out2.Perm out := by
  unfold get_boundary_constraints at h1 ⊢
  cases hp : prepare_assertions ctx l1 with
  | error e =>
    rw [hp] at h1
    cases h1
  | ok sorted =>
    rw [hp] at h1
    rw [prepare_assertions_perm ctx l1 l2 sorted hperm hp]
    refine ⟨h1, ?_⟩
    refine ⟨_, rfl, ?_⟩
    have hout : out = sort_by_adjustment
        ((iter1 (boundary_loop interp ctx sorted coin).groups).map Prod.snd) := by
      injection h1 with h
      exact h.symm
    rw [hout]
    have hmaps : ((iter2 (boundary_loop interp ctx sorted coin).groups).map Prod.snd).Perm
        ((iter1 (boundary_loop interp ctx sorted coin).groups).map Prod.snd) :=
      ((hiter2 _).trans (hiter1 _).symm).map Prod.snd
    exact ((sort_by_adjustment_perm _).trans hmaps).trans (sort_by_adjustment_perm _).symm

/-- C2 witness: swapping two accepted single-step assertions under the
identity iteration order reproduces the same output list, and under the
reversed iteration order produces a permutation of it. -/
theorem boundary_constraints_perm_invariant_witness :
    ([⟨0, 0, 0, [7]⟩, ⟨1, 8, 0, [5]⟩] : List (Assertion (ZMod 17))).Perm
      [⟨1, 8, 0, [5]⟩, ⟨0, 0, 0, [7]⟩] ∧
    except_is_ok (get_boundary_constraints (E := ZMod 17) interp_id ctx17
      [⟨0, 0, 0, [7]⟩, ⟨1, 8, 0, [5]⟩] coin17 (fun l => l)) = true ∧
    get_boundary_constraints (E := ZMod 17) interp_id ctx17
        [⟨1, 8, 0, [5]⟩, ⟨0, 0, 0, [7]⟩] coin17 (fun l => l) =
      get_boundary_constraints (E := ZMod 17) interp_id ctx17
        [⟨0, 0, 0, [7]⟩, ⟨1, 8, 0, [5]⟩] coin17 (fun l => l) ∧
    (∃ out1 out2,
      get_boundary_constraints (E := ZMod 17) interp_id ctx17
        [⟨0, 0, 0, [7]⟩, ⟨1, 8, 0, [5]⟩] coin17 (fun l => l) = .ok out1 ∧
      get_boundary_constraints (E := ZMod 17) interp_id ctx17
        [⟨1, 8, 0, [5]⟩, ⟨0, 0, 0, [7]⟩] coin17 (fun l => l.reverse) = .ok out2 ∧
      out2.Perm out1) := by
  refine ⟨by decide, by decide, ?_⟩
  rcases hres : get_boundary_constraints (E := ZMod 17) interp_id ctx17
      [⟨0, 0, 0, [7]⟩, ⟨1, 8, 0, [5]⟩] coin17 (fun l => l) with e | out
  · have hok : except_is_ok (get_boundary_constraints (E := ZMod 17) interp_id ctx17
        [⟨0, 0, 0, [7]⟩, ⟨1, 8, 0, [5]⟩] coin17 (fun l => l)) = true := by decide
    rw [hres] at hok
    exact absurd hok (by simp [except_is_ok])
  · have h := boundary_constraints_perm_invariant interp_id ctx17
      [⟨0, 0, 0, [7]⟩, ⟨1, 8, 0, [5]⟩] [⟨1, 8, 0, [5]⟩, ⟨0, 0, 0, [7]⟩] coin17 out
      (fun l => l) (fun l => l.reverse)
      (fun l => List.Perm.refl l) (fun l => List.reverse_perm l)
      (by decide) hres
    obtain ⟨out2, hout2, hperm2⟩ := h.2
    constructor
    · exact h.1
    · exact ⟨out, out2, rfl, hout2, hperm2⟩

end Winterfell
